import Mathlib

/-!
# Verification of the archive-transfer document generator

Shallow embedding of the placeholder-substitution engine, the field
derivation engine, the missing-field computation, the template variable
scanner and the batch orchestrator of the generator, together with proofs
about the embedded operations.

Texts are modelled as `List Char`; a run is a text together with an opaque
formatting handle.  All definitions are translated from the source file
`Generator-for-college-student-file-transfer-form.py`.
-/

/-- Embedding of Python `str.find`: index of the first occurrence of `pat`
in `l`, or `none` (Python returns `-1`). -/
def findSub (pat : List Char) : List Char → Option Nat
  | [] => if pat = [] then some 0 else none
  | c :: t =>
    if (c :: t).take pat.length = pat then some 0
    else (findSub pat t).map (· + 1)

/-- Worker for the embedding of Python `str.replace`, structurally
recursive on a fuel argument so that it evaluates by kernel reduction;
the fuel never runs out when it starts at the length of the text, because
every step consumes at least one character. -/
def replaceAllGo (pat repl : List Char) : Nat → List Char → List Char
  | _, [] => if pat = [] then repl else []
  | 0, l => l
  | fuel + 1, c :: t =>
    if pat ≠ [] ∧ (c :: t).take pat.length = pat then
      repl ++ replaceAllGo pat repl fuel ((c :: t).drop pat.length)
    else if pat = [] then repl ++ c :: replaceAllGo pat repl fuel t
    else c :: replaceAllGo pat repl fuel t

/-- Embedding of Python `str.replace` (all occurrences, left to right;
an empty pattern inserts the replacement at every boundary). -/
def replaceAll (pat repl : List Char) (l : List Char) : List Char :=
  replaceAllGo pat repl l.length l

theorem replaceAllGo_congr (pat repl : List Char) :
    ∀ f1 f2 l, l.length ≤ f1 → l.length ≤ f2 →
      replaceAllGo pat repl f1 l = replaceAllGo pat repl f2 l := by
  intro f1
  induction f1 with
  | zero =>
    intro f2 l hl _
    have : l = [] := List.length_eq_zero.mp (Nat.le_zero.mp hl)
    subst this
    cases f2 <;> rfl
  | succ f1 ih =>
    intro f2 l hl1 hl2
    cases l with
    | nil => cases f2 <;> rfl
    | cons c t =>
      simp only [List.length_cons] at hl1 hl2
      cases f2 with
      | zero => omega
      | succ f2 =>
        rw [replaceAllGo, replaceAllGo]
        by_cases hg : pat ≠ [] ∧ (c :: t).take pat.length = pat
        · have hpos : 0 < pat.length := List.length_pos.mpr hg.1
          have hd1 : ((c :: t).drop pat.length).length ≤ f1 := by
            simp only [List.length_drop, List.length_cons]
            omega
          have hd2 : ((c :: t).drop pat.length).length ≤ f2 := by
            simp only [List.length_drop, List.length_cons]
            omega
          rw [if_pos hg, if_pos hg, ih f2 _ hd1 hd2]
        · rw [if_neg hg, if_neg hg]
          by_cases hp : pat = []
          · rw [if_pos hp, if_pos hp, ih f2 t (by omega) (by omega)]
          · rw [if_neg hp, if_neg hp, ih f2 t (by omega) (by omega)]

theorem replaceAll_nil (pat repl : List Char) :
    replaceAll pat repl [] = if pat = [] then repl else [] := rfl

theorem replaceAll_cons (pat repl : List Char) (c : Char) (t : List Char) :
    replaceAll pat repl (c :: t) =
      if pat ≠ [] ∧ (c :: t).take pat.length = pat then
        repl ++ replaceAll pat repl ((c :: t).drop pat.length)
      else if pat = [] then repl ++ c :: replaceAll pat repl t
      else c :: replaceAll pat repl t := by
  show replaceAllGo pat repl (t.length + 1) (c :: t) = _
  rw [replaceAllGo]
  by_cases hg : pat ≠ [] ∧ (c :: t).take pat.length = pat
  · have hpos : 0 < pat.length := List.length_pos.mpr hg.1
    rw [if_pos hg, if_pos hg]
    unfold replaceAll
    rw [replaceAllGo_congr pat repl t.length ((c :: t).drop pat.length).length _
      (by simp only [List.length_drop, List.length_cons]; omega) le_rfl]
  · rw [if_neg hg, if_neg hg]
    by_cases hp : pat = []
    · rw [if_pos hp, if_pos hp]
      rfl
    · rw [if_neg hp, if_neg hp]
      rfl

theorem findSub_nil (pat : List Char) (h : pat ≠ []) : findSub pat [] = none := by
  simp [findSub, h]

/-- If the pattern does not occur, `replaceAll` is the identity. -/
theorem replaceAll_of_findSub_none (pat repl : List Char) :
    ∀ l : List Char, findSub pat l = none → replaceAll pat repl l = l := by
  intro l
  induction l with
  | nil =>
    intro h
    by_cases hp : pat = [] <;> simp [findSub, replaceAll_nil, hp] at *
  | cons c t ih =>
    intro h
    by_cases hp : pat = []
    · simp [findSub, hp] at h
    · simp only [findSub] at h
      by_cases hpre : (c :: t).take pat.length = pat
      · simp [hpre] at h
      · simp only [hpre, if_false, Option.map_eq_none'] at h
        simp [replaceAll_cons, hpre, hp, ih h]

theorem findSub_le (pat : List Char) :
    ∀ l pos, findSub pat l = some pos → pos + pat.length ≤ l.length := by
  intro l
  induction l with
  | nil =>
    intro pos h
    by_cases hp : pat = []
    · simp only [findSub, hp, if_pos] at h
      obtain rfl : (0 : Nat) = pos := by simpa using h
      simp [hp]
    · simp [findSub, hp] at h
  | cons c t ih =>
    intro pos h
    simp only [findSub] at h
    by_cases hpre : (c :: t).take pat.length = pat
    · simp only [hpre, if_pos] at h
      obtain rfl : (0 : Nat) = pos := by simpa using h
      have hlen := congrArg List.length hpre
      simp only [List.length_take, List.length_cons] at hlen
      simp only [List.length_cons]
      omega
    · simp only [hpre, if_false, Option.map_eq_some'] at h
      obtain ⟨q, hq, rfl⟩ := h
      have := ih q hq
      simp only [List.length_cons]
      omega

theorem findSub_prefix (pat : List Char) :
    ∀ l pos, findSub pat l = some pos → (l.drop pos).take pat.length = pat := by
  intro l
  induction l with
  | nil =>
    intro pos h
    by_cases hp : pat = []
    · simp only [findSub, hp, if_pos] at h
      obtain rfl : (0 : Nat) = pos := by simpa using h
      simp [hp]
    · simp [findSub, hp] at h
  | cons c t ih =>
    intro pos h
    simp only [findSub] at h
    by_cases hpre : (c :: t).take pat.length = pat
    · simp only [hpre, if_pos] at h
      obtain rfl : (0 : Nat) = pos := by simpa using h
      simpa using hpre
    · simp only [hpre, if_false, Option.map_eq_some'] at h
      obtain ⟨q, hq, rfl⟩ := h
      simpa using ih q hq

/-- The occurrence found by `findSub` decomposes the text. -/
theorem findSub_decomp (pat : List Char) (l : List Char) (pos : Nat)
    (h : findSub pat l = some pos) :
    l = l.take pos ++ pat ++ l.drop (pos + pat.length) := by
  have h1 := findSub_prefix pat l pos h
  conv_lhs => rw [← List.take_append_drop pos l,
    ← List.take_append_drop pat.length (l.drop pos)]
  rw [h1, List.drop_drop, List.append_assoc]

/-- Dropping a prefix that ends before the first occurrence shifts it. -/
theorem findSub_drop (pat : List Char) :
    ∀ k l pos, findSub pat l = some pos → k ≤ pos →
      findSub pat (l.drop k) = some (pos - k) := by
  intro k
  induction k with
  | zero => intro l pos h _; simpa using h
  | succ k ih =>
    intro l pos h hk
    cases l with
    | nil =>
      by_cases hp : pat = [] <;> simp [findSub, hp] at h
      omega
    | cons c t =>
      simp only [findSub] at h
      by_cases hpre : (c :: t).take pat.length = pat
      · simp only [hpre, if_pos] at h
        obtain rfl : (0 : Nat) = pos := by simpa using h
        omega
      · simp only [hpre, if_false, Option.map_eq_some'] at h
        obtain ⟨q, hq, rfl⟩ := h
        have := ih t q hq (by omega)
        simpa [List.drop_succ_cons, Nat.succ_sub_succ] using this

/-- A first occurrence lying inside the left part of an append is a first
occurrence of the left part. -/
theorem findSub_append_left (pat : List Char) :
    ∀ l m pos, pat ≠ [] → findSub pat (l ++ m) = some pos →
      pos + pat.length ≤ l.length → findSub pat l = some pos := by
  intro l
  induction l with
  | nil =>
    intro m pos hp _ hlen
    have : 0 < pat.length := List.length_pos.mpr hp
    simp only [List.length_nil] at hlen
    omega
  | cons c t ih =>
    intro m pos hp h hlen
    have h0 : 0 < pat.length := List.length_pos.mpr hp
    have hplen : pat.length ≤ (c :: t).length := by omega
    have htake : (c :: (t ++ m)).take pat.length = (c :: t).take pat.length :=
      List.take_append_of_le_length hplen
    have h' : findSub pat (c :: (t ++ m)) = some pos := h
    simp only [findSub] at h' ⊢
    rw [htake] at h'
    by_cases hpre : (c :: t).take pat.length = pat
    · simp only [hpre, if_pos] at h' ⊢
      exact h'
    · simp only [hpre, if_false, Option.map_eq_some'] at h' ⊢
      obtain ⟨q, hq, rfl⟩ := h'
      refine ⟨q, ih m q hp hq ?_, rfl⟩
      simp only [List.length_cons] at hlen
      omega

/-- `replaceAll` rewrites the first occurrence and recurses on the rest. -/
theorem replaceAll_decomp (pat repl : List Char) (hp : pat ≠ []) :
    ∀ l pos, findSub pat l = some pos →
      replaceAll pat repl l =
        l.take pos ++ repl ++ replaceAll pat repl (l.drop (pos + pat.length)) := by
  intro l
  induction l with
  | nil => intro pos h; simp [findSub, hp] at h
  | cons c t ih =>
    intro pos h
    simp only [findSub] at h
    by_cases hpre : (c :: t).take pat.length = pat
    · simp only [hpre, if_pos] at h
      obtain rfl : (0 : Nat) = pos := by simpa using h
      rw [replaceAll_cons]
      simp [hp, hpre]
    · simp only [hpre, if_false, Option.map_eq_some'] at h
      obtain ⟨q, hq, rfl⟩ := h
      rw [replaceAll_cons]
      have hguard : ¬ (pat ≠ [] ∧ (c :: t).take pat.length = pat) := by
        intro hc; exact hpre hc.2
      rw [if_neg hguard, if_neg hp]
      rw [ih q hq]
      simp [List.take_succ_cons, List.drop_succ_cons, Nat.succ_add]

theorem replaceAll_length_ge (pat repl : List Char)
    (hle : pat.length ≤ repl.length) :
    ∀ l : List Char, l.length ≤ (replaceAll pat repl l).length := by
  have main : ∀ n, ∀ l : List Char, l.length ≤ n →
      l.length ≤ (replaceAll pat repl l).length := by
    intro n
    induction n with
    | zero =>
      intro l hl
      have : l = [] := List.length_eq_zero.mp (Nat.le_zero.mp hl)
      subst this
      simp
    | succ n ih =>
      intro l hl
      cases l with
      | nil => simp
      | cons c t =>
        rw [replaceAll_cons]
        by_cases hg : pat ≠ [] ∧ (c :: t).take pat.length = pat
        · rw [if_pos hg]
          have hlen : pat.length ≤ (c :: t).length := by
            have := congrArg List.length hg.2
            simp only [List.length_take] at this
            omega
          have hpos : 0 < pat.length := List.length_pos.mpr hg.1
          have hrec := ih ((c :: t).drop pat.length) (by
            simp only [List.length_drop, List.length_cons] at *
            omega)
          simp only [List.length_append, List.length_drop] at hrec ⊢
          simp only [List.length_cons] at *
          omega
        · rw [if_neg hg]
          by_cases hp : pat = []
          · subst hp
            simp only [if_pos]
            have hrec := ih t (by simp only [List.length_cons] at hl; omega)
            simp only [List.length_append, List.length_cons] at *
            omega
          · simp only [hp, if_false]
            have hrec := ih t (by simp only [List.length_cons] at hl; omega)
            simp only [List.length_cons] at *
            omega
  intro l
  exact main l.length l le_rfl

theorem replaceAll_length_le (pat repl : List Char)
    (hle : repl.length ≤ pat.length) :
    ∀ l : List Char, (replaceAll pat repl l).length ≤ l.length := by
  have main : ∀ n, ∀ l : List Char, l.length ≤ n →
      (replaceAll pat repl l).length ≤ l.length := by
    intro n
    induction n with
    | zero =>
      intro l hl
      have : l = [] := List.length_eq_zero.mp (Nat.le_zero.mp hl)
      subst this
      rw [replaceAll_nil]
      by_cases hp : pat = []
      · subst hp
        simpa using hle
      · simp [hp]
    | succ n ih =>
      intro l hl
      cases l with
      | nil =>
        rw [replaceAll_nil]
        by_cases hp : pat = []
        · have : repl.length = 0 := by
            rw [hp] at hle
            simpa using hle
          simp [hp, this]
        · simp [hp]
      | cons c t =>
        rw [replaceAll_cons]
        by_cases hg : pat ≠ [] ∧ (c :: t).take pat.length = pat
        · rw [if_pos hg]
          have hlen : pat.length ≤ (c :: t).length := by
            have := congrArg List.length hg.2
            simp only [List.length_take] at this
            omega
          have hpos : 0 < pat.length := List.length_pos.mpr hg.1
          have hrec := ih ((c :: t).drop pat.length) (by
            simp only [List.length_drop, List.length_cons] at *
            omega)
          simp only [List.length_append, List.length_drop] at hrec ⊢
          simp only [List.length_cons] at *
          omega
        · rw [if_neg hg]
          by_cases hp : pat = []
          · subst hp
            have hr0 : repl.length = 0 := by simpa using hle
            simp only [if_pos]
            have hrec := ih t (by simp only [List.length_cons] at hl; omega)
            simp only [List.length_append, List.length_cons, hr0] at *
            omega
          · simp only [hp, if_false]
            have hrec := ih t (by simp only [List.length_cons] at hl; omega)
            simp only [List.length_cons] at *
            omega
  intro l
  exact main l.length l le_rfl

/-- When the pattern occurs and the replacement differs from it, Python
`str.replace` changes the string: the `new_text == text` early return of
the source never masks a real occurrence. -/
theorem replaceAll_ne (pat repl l : List Char) (pos : Nat) (hp : pat ≠ [])
    (hne : repl ≠ pat) (h : findSub pat l = some pos) :
    replaceAll pat repl l ≠ l := by
  intro heq
  set rest := l.drop (pos + pat.length) with hrest
  have hd := replaceAll_decomp pat repl hp l pos h
  have hl := findSub_decomp pat l pos h
  have heq2 : l.take pos ++ (repl ++ replaceAll pat repl rest)
      = l.take pos ++ (pat ++ rest) := by
    rw [← List.append_assoc, ← List.append_assoc, ← hd, heq]
    conv_lhs => rw [hl]
  have h2 : repl ++ replaceAll pat repl rest = pat ++ rest :=
    List.append_cancel_left heq2
  rcases Nat.lt_trichotomy repl.length pat.length with hlt | heqlen | hgt
  · have hR := replaceAll_length_le pat repl (Nat.le_of_lt hlt) rest
    have := congrArg List.length h2
    simp only [List.length_append] at this
    omega
  · have ht1 : (repl ++ replaceAll pat repl rest).take repl.length = repl :=
      List.take_left ..
    have ht2 : (pat ++ rest).take repl.length = pat := by
      rw [heqlen]
      exact List.take_left ..
    exact hne (by rw [← ht1, h2, ht2])
  · have hR := replaceAll_length_ge pat repl (Nat.le_of_lt hgt) rest
    have := congrArg List.length h2
    simp only [List.length_append] at this
    omega

/-- A run of a paragraph: a text plus an opaque formatting handle.  The
handle stands for the formatting state of `python-docx` runs, which the
source never reassigns (it only assigns the `.text` attribute). -/
structure Run where
  fmt : Nat
  text : List Char
deriving DecidableEq, Repr

/-- The concatenation of a paragraph's run texts, as built at the start of
`replace_placeholder_in_runs`. -/
def concatText (runs : List Run) : List Char :=
  (runs.map Run.text).flatten

/-- The run-offset table: for each run, its list index together with the
`start` and `end` offsets of its text inside the concatenation (the
`run_info` list of the source). -/
def runInfoFrom (i s : Nat) : List Run → List (Nat × Nat × Nat)
  | [] => []
  | r :: t => (i, s, s + r.text.length) :: runInfoFrom (i + 1) (s + r.text.length) t

def runInfo (runs : List Run) : List (Nat × Nat × Nat) :=
  runInfoFrom 0 0 runs

/-- The source's condition for a run to be affected by the occurrence at
`pos` of a placeholder of length `L`:
`start <= pos < end or start < pos+L <= end or (start >= pos and end <= pos+L)`. -/
def affP (pos L : Nat) (x : Nat × Nat × Nat) : Prop :=
  (x.2.1 ≤ pos ∧ pos < x.2.2) ∨ (x.2.1 < pos + L ∧ pos + L ≤ x.2.2) ∨
    (pos ≤ x.2.1 ∧ x.2.2 ≤ pos + L)

instance (pos L : Nat) (x : Nat × Nat × Nat) : Decidable (affP pos L x) := by
  unfold affP
  infer_instance

/-- Rebuild the run list after the rewrite: the run at index `i0` receives
the merged text, the runs whose indices are in `clear` are emptied, and
every other run is untouched.  Formatting handles are never reassigned. -/
def rewriteRuns (i0 : Nat) (ft : List Char) (clear : List Nat) :
    Nat → List Run → List Run
  | _, [] => []
  | i, r :: t =>
    (if i = i0 then { r with text := ft }
     else if i ∈ clear then { r with text := [] }
     else r) :: rewriteRuns i0 ft clear (i + 1) t

/-- Embedding of `replace_placeholder_in_runs` (identical in
`WordGeneratorThread` and `DocumentGenerator`): find the first occurrence
of `placeholder` in the concatenated run texts, merge the affected span
into the first affected run with the replacement spliced in, empty the
remaining affected runs.  Mirrors the early returns on
`new_text == text` and `text.find(placeholder) == -1`. -/
def affectedList (runs : List Run) (pos L : Nat) : List (Nat × Nat × Nat) :=
  (runInfo runs).filter (fun x => decide (affP pos L x))

/-- The merged text assigned to the first affected run: the part of the
original text between the first affected run's start and the occurrence,
then the replacement, then — only when more than one run is affected and
the last affected run extends past the occurrence — the remainder of the
last affected run's span. -/
def firstTextOf (text replacement : List Char) (pos L : Nat)
    (a0 : Nat × Nat × Nat) (rest : List (Nat × Nat × Nat)) : List Char :=
  let before := text.take pos
  let firstBefore := if a0.2.1 < before.length then before.drop a0.2.1 else []
  let lastEnd := (rest.getLastD a0).2.2
  if rest ≠ [] ∧ pos + L < lastEnd then
    firstBefore ++ replacement ++ (text.drop (pos + L)).take (lastEnd - (pos + L))
  else firstBefore ++ replacement

def replace_placeholder_in_runs (runs : List Run)
    (placeholder replacement : List Char) : List Run :=
  if replaceAll placeholder replacement (concatText runs) = concatText runs then
    runs
  else
    match findSub placeholder (concatText runs) with
    | none => runs
    | some pos =>
      match affectedList runs pos placeholder.length with
      | [] => runs
      | a0 :: rest =>
        rewriteRuns a0.1
          (firstTextOf (concatText runs) replacement pos placeholder.length a0 rest)
          (rest.map (fun x => x.1)) 0 runs

/-- The literal token `\x7b\x7bkey\x7d\x7d` built by the source from a
field name. -/
def mkPlaceholder (key : List Char) : List Char :=
  '\x7b' :: '\x7b' :: key ++ ['\x7d', '\x7d']

/-- Embedding of Python's `in` test on strings. -/
def containsSub (pat l : List Char) : Bool :=
  (findSub pat l).isSome

/-- Embedding of `replace_text_in_paragraph`: computes the full paragraph
text once from the original runs, then for each record entry in order
invokes `replace_placeholder_in_runs` when the placeholder occurs in that
original concatenation (an empty value is replaced by the empty string). -/
def replace_text_in_paragraph (runs : List Run)
    (data : List (List Char × List Char)) : List Run :=
  let full_text := concatText runs
  data.foldl
    (fun rs kv =>
      if containsSub (mkPlaceholder kv.1) full_text then
        replace_placeholder_in_runs rs (mkPlaceholder kv.1) kv.2
      else rs)
    runs

theorem concatText_nil : concatText [] = [] := rfl

theorem concatText_cons (r : Run) (t : List Run) :
    concatText (r :: t) = r.text ++ concatText t := by
  simp [concatText]

theorem concatText_append (a b : List Run) :
    concatText (a ++ b) = concatText a ++ concatText b := by
  simp [concatText]

theorem runInfoFrom_shift (di ds : Nat) :
    ∀ (rs : List Run) (i s : Nat),
      runInfoFrom (i + di) (s + ds) rs =
        (runInfoFrom i s rs).map (fun x => (x.1 + di, x.2.1 + ds, x.2.2 + ds)) := by
  intro rs
  induction rs with
  | nil => intro i s; rfl
  | cons r t ih =>
    intro i s
    simp only [runInfoFrom, List.map_cons]
    rw [show s + ds + r.text.length = s + r.text.length + ds from by omega,
      show i + di + 1 = i + 1 + di from by omega]
    exact congrArg (List.cons _) (ih (i + 1) (s + r.text.length))

theorem runInfoFrom_append_one (r : Run) :
    ∀ (rs : List Run) (i s : Nat),
      runInfoFrom i s (rs ++ [r]) =
        runInfoFrom i s rs ++
          [(i + rs.length, s + (concatText rs).length,
            s + (concatText rs).length + r.text.length)] := by
  intro rs
  induction rs with
  | nil => intro i s; simp [runInfoFrom, concatText]
  | cons q t ih =>
    intro i s
    have hx : (i + 1 + t.length, s + q.text.length + (concatText t).length,
        s + q.text.length + (concatText t).length + r.text.length)
        = (i + (q :: t).length, s + (concatText (q :: t)).length,
           s + (concatText (q :: t)).length + r.text.length) := by
      simp only [concatText_cons, List.length_append, List.length_cons,
        Prod.mk.injEq]
      omega
    rw [show runInfoFrom i s ((q :: t) ++ [r]) = (i, s, s + q.text.length) ::
        runInfoFrom (i + 1) (s + q.text.length) (t ++ [r]) from rfl,
      ih (i + 1) (s + q.text.length), hx]
    rfl

theorem runInfoFrom_idx :
    ∀ (rs : List Run) (i s : Nat),
      (runInfoFrom i s rs).map (fun x => x.1) = List.range' i rs.length := by
  intro rs
  induction rs with
  | nil => intro i s; rfl
  | cons r t ih =>
    intro i s
    simp [runInfoFrom, List.range'_succ, ih]

theorem runInfoFrom_mem_bounds :
    ∀ (rs : List Run) (i s : Nat) (x : Nat × Nat × Nat),
      x ∈ runInfoFrom i s rs →
        i ≤ x.1 ∧ x.1 < i + rs.length ∧ s ≤ x.2.1 ∧ x.2.1 ≤ x.2.2 ∧
          x.2.2 ≤ s + (concatText rs).length := by
  intro rs
  induction rs with
  | nil => intro i s x hx; simp [runInfoFrom] at hx
  | cons r t ih =>
    intro i s x hx
    simp only [runInfoFrom, List.mem_cons] at hx
    rcases hx with rfl | hx
    · simp only [concatText_cons, List.length_append, List.length_cons]
      omega
    · have := ih (i + 1) (s + r.text.length) x hx
      simp only [concatText_cons, List.length_append, List.length_cons]
      omega

theorem runInfoFrom_lastEnd :
    ∀ (rs : List Run) (r : Run) (i s : Nat) (d : Nat × Nat × Nat),
      (((runInfoFrom i s (r :: rs)).getLastD d).2.2 : Nat) =
        s + (concatText (r :: rs)).length := by
  intro rs
  induction rs with
  | nil =>
    intro r i s d
    simp [runInfoFrom, concatText_cons, concatText_nil]
  | cons q t ih =>
    intro r i s d
    show ((((i, s, s + r.text.length) :: runInfoFrom (i + 1) (s + r.text.length)
      (q :: t)).getLastD d).2.2 : Nat) = _
    rw [List.getLastD_cons, ih q (i + 1) (s + r.text.length)]
    simp only [concatText_cons, List.length_append]
    omega

theorem ifDrop (s : Nat) (l : List Char) :
    (if s < l.length then l.drop s else []) = l.drop s := by
  split
  · rfl
  · rw [List.drop_eq_nil_of_le (by omega)]

theorem getLastD_map {α β : Type} (f : α → β) :
    ∀ (l : List α) (d : α), (l.map f).getLastD (f d) = f (l.getLastD d) := by
  intro l
  induction l with
  | nil => intro d; rfl
  | cons a t ih =>
    intro d
    rw [List.map_cons, List.getLastD_cons, List.getLastD_cons, ih a]

theorem filter_map_comm {α β : Type} (f : α → β) (p : β → Bool) :
    ∀ l : List α, (l.map f).filter p = (l.filter (fun x => p (f x))).map f := by
  intro l
  induction l with
  | nil => rfl
  | cons a t ih =>
    simp only [List.map_cons, List.filter_cons]
    by_cases hp : p (f a)
    · simp [hp, ih]
    · simp [hp, ih]

theorem affP_shift (pos L e0 : Nat) (x : Nat × Nat × Nat) (he : e0 ≤ pos) :
    affP pos L (x.1 + 1, x.2.1 + e0, x.2.2 + e0) ↔ affP (pos - e0) L x := by
  obtain ⟨i, se⟩ := x
  obtain ⟨a, b⟩ := se
  unfold affP
  dsimp only
  omega

theorem rewriteRuns_shift (i0 : Nat) (ft : List Char) (clear : List Nat) :
    ∀ (rs : List Run) (j : Nat),
      rewriteRuns (i0 + 1) ft (clear.map (· + 1)) (j + 1) rs =
        rewriteRuns i0 ft clear j rs := by
  intro rs
  induction rs with
  | nil => intro j; rfl
  | cons r t ih =>
    intro j
    rw [rewriteRuns, rewriteRuns]
    have hiff : (j + 1 ∈ clear.map (· + 1)) ↔ j ∈ clear := by
      simp [List.mem_map]
    have hiff2 : (j + 1 = i0 + 1) ↔ j = i0 := by omega
    refine congrArg₂ _ ?_ (ih (j + 1))
    by_cases h1 : j = i0
    · rw [if_pos (hiff2.mpr h1), if_pos h1]
    · rw [if_neg (fun hc => h1 (hiff2.mp hc)), if_neg h1]
      by_cases h2 : j ∈ clear
      · rw [if_pos (hiff.mpr h2), if_pos h2]
      · rw [if_neg (fun hc => h2 (hiff.mp hc)), if_neg h2]

theorem rewriteRuns_map_fmt (i0 : Nat) (ft : List Char) (clear : List Nat) :
    ∀ (rs : List Run) (j : Nat),
      (rewriteRuns i0 ft clear j rs).map Run.fmt = rs.map Run.fmt := by
  intro rs
  induction rs with
  | nil => intro j; rfl
  | cons r t ih =>
    intro j
    rw [rewriteRuns, List.map_cons, List.map_cons, ih (j + 1)]
    refine congrArg₂ _ ?_ rfl
    split
    · rfl
    · split <;> rfl

theorem rewriteRuns_get (i0 : Nat) (ft : List Char) (clear : List Nat) :
    ∀ (rs : List Run) (j k : Nat),
      (rewriteRuns i0 ft clear j rs).get? k =
        (rs.get? k).map (fun r =>
          if j + k = i0 then { r with text := ft }
          else if j + k ∈ clear then { r with text := [] }
          else r) := by
  intro rs
  induction rs with
  | nil => intro j k; rfl
  | cons r t ih =>
    intro j k
    cases k with
    | zero =>
      rw [rewriteRuns]
      simp
    | succ k =>
      rw [rewriteRuns]
      simp only [List.get?_cons_succ]
      rw [ih (j + 1) k]
      have : j + 1 + k = j + (k + 1) := by omega
      rw [this]

theorem rewriteRuns_append (i0 : Nat) (ft : List Char) (clear : List Nat) (r : Run) :
    ∀ (rs : List Run) (j : Nat),
      rewriteRuns i0 ft clear j (rs ++ [r]) =
        rewriteRuns i0 ft clear j rs ++
          [if j + rs.length = i0 then { r with text := ft }
           else if j + rs.length ∈ clear then { r with text := [] }
           else r] := by
  intro rs
  induction rs with
  | nil =>
    intro j
    simp [rewriteRuns]
  | cons q t ih =>
    intro j
    rw [List.cons_append, rewriteRuns, rewriteRuns, ih (j + 1)]
    rw [show j + 1 + t.length = j + (q :: t).length from by
      simp only [List.length_cons]
      omega]
    rfl

theorem rewriteRuns_concat_cleared (i0 : Nat) (ft : List Char) (clear : List Nat) :
    ∀ (rs : List Run) (j : Nat),
      (∀ k, j ≤ k → k < j + rs.length → k ∈ clear ∧ k ≠ i0) →
      concatText (rewriteRuns i0 ft clear j rs) = [] := by
  intro rs
  induction rs with
  | nil => intro j _; rfl
  | cons r t ih =>
    intro j hk
    rw [rewriteRuns, concatText_cons]
    have hj := hk j le_rfl (by simp [List.length_cons])
    rw [if_neg hj.2, if_pos hj.1]
    have : concatText (rewriteRuns i0 ft clear (j + 1) t) = [] := by
      refine ih (j + 1) ?_
      intro k h1 h2
      exact hk k (by omega) (by simp only [List.length_cons]; omega)
    simp [this]

theorem firstTextOf_eq (text replacement : List Char) (pos L : Nat)
    (a0 : Nat × Nat × Nat) (rest : List (Nat × Nat × Nat)) :
    firstTextOf text replacement pos L a0 rest =
      if rest ≠ [] ∧ pos + L < (rest.getLastD a0).2.2 then
        (text.take pos).drop a0.2.1 ++ replacement ++
          (text.drop (pos + L)).take ((rest.getLastD a0).2.2 - (pos + L))
      else (text.take pos).drop a0.2.1 ++ replacement := by
  simp only [firstTextOf]
  rw [ifDrop]

theorem replace_of_guard (runs : List Run) (ph repl : List Char)
    (h : replaceAll ph repl (concatText runs) = concatText runs) :
    replace_placeholder_in_runs runs ph repl = runs := by
  unfold replace_placeholder_in_runs
  rw [if_pos h]

theorem replace_of_find_none (runs : List Run) (ph repl : List Char)
    (h : findSub ph (concatText runs) = none) :
    replace_placeholder_in_runs runs ph repl = runs := by
  unfold replace_placeholder_in_runs
  split
  · rfl
  · rw [h]

theorem replace_of_filter_nil (runs : List Run) (ph repl : List Char) (pos : Nat)
    (hfind : findSub ph (concatText runs) = some pos)
    (hfil : affectedList runs pos ph.length = []) :
    replace_placeholder_in_runs runs ph repl = runs := by
  unfold replace_placeholder_in_runs
  split
  · rfl
  · rw [hfind]
    dsimp only
    rw [hfil]

theorem replace_of_filter_cons (runs : List Run) (ph repl : List Char) (pos : Nat)
    (a0 : Nat × Nat × Nat) (rest : List (Nat × Nat × Nat))
    (hguard : ¬ replaceAll ph repl (concatText runs) = concatText runs)
    (hfind : findSub ph (concatText runs) = some pos)
    (hfil : affectedList runs pos ph.length = a0 :: rest) :
    replace_placeholder_in_runs runs ph repl =
      rewriteRuns a0.1
        (firstTextOf (concatText runs) repl pos ph.length a0 rest)
        (rest.map (fun x => x.1)) 0 runs := by
  unfold replace_placeholder_in_runs
  rw [if_neg hguard, hfind]
  dsimp only
  rw [hfil]

theorem affectedList_cons (r : Run) (runs : List Run) (pos L : Nat)
    (hnaff : ¬ affP pos L (0, 0, r.text.length)) (he0 : r.text.length ≤ pos) :
    affectedList (r :: runs) pos L =
      (affectedList runs (pos - r.text.length) L).map
        (fun x => (x.1 + 1, x.2.1 + r.text.length, x.2.2 + r.text.length)) := by
  unfold affectedList runInfo
  rw [runInfoFrom, runInfoFrom_shift 1 r.text.length runs 0 0]
  rw [List.filter_cons]
  rw [if_neg (by simpa using hnaff)]
  rw [filter_map_comm]
  congr 1
  refine List.filter_congr ?_
  intro x _
  exact decide_eq_decide.mpr (affP_shift pos L r.text.length x he0)

theorem replace_cons_not_affected (r : Run) (runs : List Run)
    (ph repl : List Char) (pos : Nat)
    (hp : ph ≠ []) (hne : repl ≠ ph)
    (hfind : findSub ph (concatText (r :: runs)) = some pos)
    (hnaff : ¬ affP pos ph.length (0, 0, r.text.length)) :
    replace_placeholder_in_runs (r :: runs) ph repl =
      r :: replace_placeholder_in_runs runs ph repl := by
  have hL : 0 < ph.length := List.length_pos.mpr hp
  have he0 : r.text.length ≤ pos := by
    by_contra hc
    apply hnaff
    unfold affP
    dsimp only
    omega
  have htext : concatText (r :: runs) = r.text ++ concatText runs :=
    concatText_cons r runs
  have hfind' : findSub ph (concatText runs) = some (pos - r.text.length) := by
    have h2 := findSub_drop ph r.text.length _ pos hfind he0
    rw [htext, List.drop_left] at h2
    exact h2
  have hguard : ¬ replaceAll ph repl (concatText (r :: runs)) = concatText (r :: runs) :=
    replaceAll_ne ph repl _ pos hp hne hfind
  have hguard' : ¬ replaceAll ph repl (concatText runs) = concatText runs :=
    replaceAll_ne ph repl _ _ hp hne hfind'
  have hfil := affectedList_cons r runs pos ph.length hnaff he0
  cases haff : affectedList runs (pos - r.text.length) ph.length with
  | nil =>
    rw [haff] at hfil
    simp only [List.map_nil] at hfil
    rw [replace_of_filter_nil (r :: runs) ph repl pos hfind hfil,
      replace_of_filter_nil runs ph repl _ hfind' haff]
  | cons b0 brest =>
    rw [haff, List.map_cons] at hfil
    rw [replace_of_filter_cons (r :: runs) ph repl pos _ _ hguard hfind hfil,
      replace_of_filter_cons runs ph repl _ b0 brest hguard' hfind' haff]
    have hft : firstTextOf (concatText (r :: runs)) repl pos ph.length
        (b0.1 + 1, b0.2.1 + r.text.length, b0.2.2 + r.text.length)
        (brest.map (fun x => (x.1 + 1, x.2.1 + r.text.length, x.2.2 + r.text.length)))
        = firstTextOf (concatText runs) repl (pos - r.text.length) ph.length b0 brest := by
      rw [firstTextOf_eq, firstTextOf_eq]
      have hLE : ((brest.map (fun x =>
          (x.1 + 1, x.2.1 + r.text.length, x.2.2 + r.text.length))).getLastD
          (b0.1 + 1, b0.2.1 + r.text.length, b0.2.2 + r.text.length)).2.2
          = (brest.getLastD b0).2.2 + r.text.length := by
        rw [getLastD_map (fun x => (x.1 + 1, x.2.1 + r.text.length, x.2.2 + r.text.length))
          brest b0]
      have hbefore : (concatText (r :: runs)).take pos =
          r.text ++ (concatText runs).take (pos - r.text.length) := by
        rw [htext, List.take_append_eq_append_take, List.take_of_length_le he0]
      have hfb : ((concatText (r :: runs)).take pos).drop (b0.2.1 + r.text.length) =
          ((concatText runs).take (pos - r.text.length)).drop b0.2.1 := by
        rw [hbefore, List.drop_append_eq_append_drop,
          List.drop_eq_nil_of_le (by omega : r.text.length ≤ b0.2.1 + r.text.length),
          show b0.2.1 + r.text.length - r.text.length = b0.2.1 from by omega]
        rfl
      have hafter : (concatText (r :: runs)).drop (pos + ph.length) =
          (concatText runs).drop (pos - r.text.length + ph.length) := by
        rw [htext, List.drop_append_eq_append_drop,
          List.drop_eq_nil_of_le (by omega : r.text.length ≤ pos + ph.length),
          show pos + ph.length - r.text.length = pos - r.text.length + ph.length from by
            omega]
        rfl
      rw [hLE, hfb, hafter]
      by_cases hb : brest = []
      · subst hb
        simp only [List.map_nil, ne_eq, not_true_eq_false, false_and, if_false]
      · have hb' : brest.map (fun x =>
            (x.1 + 1, x.2.1 + r.text.length, x.2.2 + r.text.length)) ≠ [] := by
          simpa using hb
        by_cases hlt : pos - r.text.length + ph.length < (brest.getLastD b0).2.2
        · rw [if_pos ⟨hb', by omega⟩, if_pos ⟨hb, hlt⟩,
            show (brest.getLastD b0).2.2 + r.text.length - (pos + ph.length)
              = (brest.getLastD b0).2.2 - (pos - r.text.length + ph.length) from by omega]
        · rw [if_neg (by
            intro hc
            exact hlt (by omega)), if_neg (by
            intro hc
            exact hlt hc.2)]
    rw [hft]
    have hclear : (brest.map (fun x =>
        (x.1 + 1, x.2.1 + r.text.length, x.2.2 + r.text.length))).map (fun x => x.1)
        = (brest.map (fun x => x.1)).map (· + 1) := by
      simp [List.map_map]
    rw [hclear]
    rw [rewriteRuns]
    rw [if_neg (by omega : ¬ (0 : Nat) = b0.1 + 1),
      if_neg (by simp : ¬ (0 : Nat) ∈ (brest.map (fun x => x.1)).map (· + 1))]
    exact congrArg (List.cons r)
      (rewriteRuns_shift b0.1 _ (brest.map (fun x => x.1)) runs 0)

theorem concatText_singleton (r : Run) : concatText [r] = r.text := by
  simp [concatText]

theorem getLastD_mem_cons {α : Type} :
    ∀ (l : List α) (d : α), l.getLastD d ∈ d :: l := by
  intro l
  induction l with
  | nil => intro d; simp
  | cons a t ih =>
    intro d
    rw [List.getLastD_cons]
    have := ih a
    simp only [List.mem_cons] at this ⊢
    tauto

/-- Every affected entry comes from the run-offset table and satisfies its
bounds. -/
theorem affectedList_mem_bounds (runs : List Run) (pos L : Nat)
    (x : Nat × Nat × Nat) (hx : x ∈ affectedList runs pos L) :
    x.1 < runs.length ∧ x.2.1 ≤ x.2.2 ∧ x.2.2 ≤ (concatText runs).length := by
  unfold affectedList at hx
  have hmem : x ∈ runInfo runs := List.mem_of_mem_filter hx
  have := runInfoFrom_mem_bounds runs 0 0 x hmem
  omega

theorem replace_snoc_not_affected (runs : List Run) (r : Run)
    (ph repl : List Char) (pos : Nat)
    (hp : ph ≠ []) (hne : repl ≠ ph)
    (hfind : findSub ph (concatText (runs ++ [r])) = some pos)
    (hnaff : ¬ affP pos ph.length
      (runs.length, (concatText runs).length,
        (concatText runs).length + r.text.length)) :
    replace_placeholder_in_runs (runs ++ [r]) ph repl =
      replace_placeholder_in_runs runs ph repl ++ [r] := by
  have hL : 0 < ph.length := List.length_pos.mpr hp
  have htext : concatText (runs ++ [r]) = concatText runs ++ r.text := by
    rw [concatText_append, concatText_singleton]
  have hlen := findSub_le ph _ pos hfind
  rw [htext, List.length_append] at hlen
  have hTL : pos + ph.length ≤ (concatText runs).length := by
    by_contra hc
    apply hnaff
    unfold affP
    dsimp only
    omega
  have hfind' : findSub ph (concatText runs) = some pos := by
    refine findSub_append_left ph (concatText runs) r.text pos hp ?_ hTL
    rw [← htext]
    exact hfind
  have hguard : ¬ replaceAll ph repl (concatText (runs ++ [r]))
      = concatText (runs ++ [r]) :=
    replaceAll_ne ph repl _ pos hp hne hfind
  have hguard' : ¬ replaceAll ph repl (concatText runs) = concatText runs :=
    replaceAll_ne ph repl _ pos hp hne hfind'
  have hfilA : affectedList (runs ++ [r]) pos ph.length
      = affectedList runs pos ph.length := by
    unfold affectedList runInfo
    rw [runInfoFrom_append_one r runs 0 0, List.filter_append]
    have : (([(0 + runs.length, 0 + (concatText runs).length,
        0 + (concatText runs).length + r.text.length)]).filter
        (fun x => decide (affP pos ph.length x))) = [] := by
      simp only [List.filter_cons, List.filter_nil]
      rw [if_neg (by simpa using hnaff)]
    rw [this, List.append_nil]
  cases haff : affectedList runs pos ph.length with
  | nil =>
    rw [replace_of_filter_nil (runs ++ [r]) ph repl pos hfind (hfilA.trans haff),
      replace_of_filter_nil runs ph repl pos hfind' haff]
  | cons a0 rest =>
    rw [replace_of_filter_cons (runs ++ [r]) ph repl pos a0 rest hguard hfind
        (hfilA.trans haff),
      replace_of_filter_cons runs ph repl pos a0 rest hguard' hfind' haff]
    have hlastmem : rest.getLastD a0 ∈ affectedList runs pos ph.length := by
      rw [haff]
      exact getLastD_mem_cons rest a0
    have hlastb := affectedList_mem_bounds runs pos ph.length _ hlastmem
    have ha0mem : a0 ∈ affectedList runs pos ph.length := by
      rw [haff]
      exact List.mem_cons_self a0 rest
    have ha0b := affectedList_mem_bounds runs pos ph.length a0 ha0mem
    have hft : firstTextOf (concatText (runs ++ [r])) repl pos ph.length a0 rest
        = firstTextOf (concatText runs) repl pos ph.length a0 rest := by
      rw [firstTextOf_eq, firstTextOf_eq]
      have hbefore : (concatText (runs ++ [r])).take pos
          = (concatText runs).take pos := by
        rw [htext]
        exact List.take_append_of_le_length (by omega)
      have hafter : (concatText (runs ++ [r])).drop (pos + ph.length)
          = (concatText runs).drop (pos + ph.length) ++ r.text := by
        rw [htext]
        exact List.drop_append_of_le_length hTL
      rw [hbefore, hafter]
      by_cases hcond : rest ≠ [] ∧ pos + ph.length < (rest.getLastD a0).2.2
      · rw [if_pos hcond, if_pos hcond,
          List.take_append_of_le_length (by
            simp only [List.length_drop]
            omega)]
      · rw [if_neg hcond, if_neg hcond]
    rw [hft, rewriteRuns_append]
    have hclear : ¬ (0 + runs.length ∈ rest.map (fun x => x.1)) := by
      intro hc
      simp only [List.mem_map] at hc
      obtain ⟨y, hy, hy2⟩ := hc
      have hym : y ∈ affectedList runs pos ph.length := by
        rw [haff]
        exact List.mem_cons_of_mem a0 hy
      have := affectedList_mem_bounds runs pos ph.length y hym
      omega
    rw [if_neg (by omega : ¬ 0 + runs.length = a0.1), if_neg hclear]

/-- The affected condition is convex over the ordered run intervals: an
interval lying between two affected intervals is affected. -/
theorem affP_between (pos L : Nat) (x y z : Nat × Nat × Nat)
    (hxw : x.2.1 ≤ x.2.2) (hzw : z.2.1 ≤ z.2.2)
    (hxy : x.2.2 ≤ y.2.1) (hyz : y.2.2 ≤ z.2.1)
    (hx : affP pos L x) (hz : affP pos L z) : affP pos L y := by
  unfold affP at *
  omega

/-- When every run is affected, the merged text replaces the whole
paragraph: the first run receives the entire rewritten concatenation and
all other runs are emptied. -/
theorem replace_all_affected (runs : List Run) (ph repl : List Char) (pos : Nat)
    (hp : ph ≠ []) (hne : repl ≠ ph)
    (hfind : findSub ph (concatText runs) = some pos)
    (hall : ∀ x ∈ runInfo runs, affP pos ph.length x)
    (h2 : 2 ≤ runs.length) :
    concatText (replace_placeholder_in_runs runs ph repl) =
      (concatText runs).take pos ++ repl ++
        (concatText runs).drop (pos + ph.length) := by
  have hL : 0 < ph.length := List.length_pos.mpr hp
  have hguard : ¬ replaceAll ph repl (concatText runs) = concatText runs :=
    replaceAll_ne ph repl _ pos hp hne hfind
  have hfil : affectedList runs pos ph.length = runInfo runs := by
    unfold affectedList
    exact List.filter_eq_self.mpr (fun a ha => decide_eq_true (hall a ha))
  cases runs with
  | nil => simp at h2
  | cons r0 t =>
    cases t with
    | nil => simp at h2
    | cons r1 t2 =>
      have hinfo : runInfo (r0 :: r1 :: t2) =
          (0, 0, 0 + r0.text.length) ::
            runInfoFrom (0 + 1) (0 + r0.text.length) (r1 :: t2) := rfl
      have hfil' : affectedList (r0 :: r1 :: t2) pos ph.length =
          (0, 0, 0 + r0.text.length) ::
            runInfoFrom (0 + 1) (0 + r0.text.length) (r1 :: t2) := by
        rw [hfil, hinfo]
      rw [replace_of_filter_cons (r0 :: r1 :: t2) ph repl pos _ _ hguard hfind hfil']
      have hlastEnd : ((runInfoFrom (0 + 1) (0 + r0.text.length)
          (r1 :: t2)).getLastD (0, 0, 0 + r0.text.length)).2.2 =
          (concatText (r0 :: r1 :: t2)).length := by
        rw [runInfoFrom_lastEnd t2 r1 (0 + 1) (0 + r0.text.length)]
        simp only [concatText_cons, List.length_append]
        omega
      have hfindlen := findSub_le ph _ pos hfind
      have hrest_ne : runInfoFrom (0 + 1) (0 + r0.text.length) (r1 :: t2) ≠ [] := by
        rw [runInfoFrom]
        exact List.cons_ne_nil _ _
      have hft : firstTextOf (concatText (r0 :: r1 :: t2)) repl pos ph.length
          (0, 0, 0 + r0.text.length)
          (runInfoFrom (0 + 1) (0 + r0.text.length) (r1 :: t2)) =
          (concatText (r0 :: r1 :: t2)).take pos ++ repl ++
            (concatText (r0 :: r1 :: t2)).drop (pos + ph.length) := by
        rw [firstTextOf_eq, hlastEnd]
        dsimp only
        by_cases hlt : pos + ph.length < (concatText (r0 :: r1 :: t2)).length
        · rw [if_pos ⟨hrest_ne, hlt⟩]
          rw [show ((concatText (r0 :: r1 :: t2)).drop (pos + ph.length)).take
              ((concatText (r0 :: r1 :: t2)).length - (pos + ph.length)) =
              (concatText (r0 :: r1 :: t2)).drop (pos + ph.length) from
            List.take_of_length_le (by rw [List.length_drop])]
          rw [List.drop_zero]
        · rw [if_neg (fun hc => hlt hc.2)]
          have hEq : pos + ph.length = (concatText (r0 :: r1 :: t2)).length := by
            omega
          rw [show (concatText (r0 :: r1 :: t2)).drop (pos + ph.length) = [] from
            List.drop_eq_nil_of_le (by omega)]
          rw [List.append_nil, List.drop_zero]
      rw [hft]
      have hidx : (runInfoFrom (0 + 1) (0 + r0.text.length) (r1 :: t2)).map
          (fun x => x.1) = List.range' 1 (r1 :: t2).length := by
        have := runInfoFrom_idx (r1 :: t2) (0 + 1) (0 + r0.text.length)
        simpa using this
      rw [rewriteRuns]
      rw [if_pos (show (0 : Nat) = (0, 0, 0 + r0.text.length).1 from rfl)]
      rw [concatText_cons]
      have htail : concatText (rewriteRuns (0, 0, 0 + r0.text.length).1
          (List.take pos (concatText (r0 :: r1 :: t2)) ++ repl ++
            List.drop (pos + ph.length) (concatText (r0 :: r1 :: t2)))
          ((runInfoFrom (0 + 1) (0 + r0.text.length) (r1 :: t2)).map (fun x => x.1))
          (0 + 1) (r1 :: t2)) = [] := by
        refine rewriteRuns_concat_cleared _ _ _ (r1 :: t2) (0 + 1) ?_
        intro k h1 h2
        constructor
        · rw [hidx, List.mem_range'_1]
          omega
        · intro hc
          subst hc
          dsimp at h1
          omega
      rw [htail, List.append_nil]

theorem runInfoFrom_length :
    ∀ (rs : List Run) (i s : Nat), (runInfoFrom i s rs).length = rs.length := by
  intro rs
  induction rs with
  | nil => intro i s; rfl
  | cons r t ih =>
    intro i s
    simp [runInfoFrom, ih]

theorem cons_unaffected_le (r : Run) (pos L : Nat) (hL : 0 < L)
    (hnaff : ¬ affP pos L (0, 0, r.text.length)) : r.text.length ≤ pos := by
  by_contra hc
  apply hnaff
  unfold affP
  dsimp only
  omega

theorem snoc_unaffected_le (runs : List Run) (r : Run) (ph : List Char)
    (pos : Nat) (_hp : ph ≠ [])
    (hfind : findSub ph (concatText (runs ++ [r])) = some pos)
    (hnaff : ¬ affP pos ph.length
      (runs.length, (concatText runs).length,
        (concatText runs).length + r.text.length)) :
    pos + ph.length ≤ (concatText runs).length := by
  have hlen := findSub_le ph _ pos hfind
  rw [concatText_append, concatText_singleton, List.length_append] at hlen
  by_contra hc
  apply hnaff
  unfold affP
  dsimp only
  omega

theorem snoc_findSub (runs : List Run) (r : Run) (ph : List Char) (pos : Nat)
    (hp : ph ≠ [])
    (hfind : findSub ph (concatText (runs ++ [r])) = some pos)
    (hTL : pos + ph.length ≤ (concatText runs).length) :
    findSub ph (concatText runs) = some pos := by
  refine findSub_append_left ph (concatText runs) r.text pos hp ?_ hTL
  rw [← concatText_singleton r, ← concatText_append]
  exact hfind

theorem snoc_affectedList (runs : List Run) (r : Run) (pos L : Nat)
    (hnaff : ¬ affP pos L
      (runs.length, (concatText runs).length,
        (concatText runs).length + r.text.length)) :
    affectedList (runs ++ [r]) pos L = affectedList runs pos L := by
  unfold affectedList runInfo
  rw [runInfoFrom_append_one r runs 0 0, List.filter_append]
  have : (([(0 + runs.length, 0 + (concatText runs).length,
      0 + (concatText runs).length + r.text.length)]).filter
      (fun x => decide (affP pos L x))) = [] := by
    simp only [List.filter_cons, List.filter_nil]
    rw [if_neg (by simpa using hnaff)]
  rw [this, List.append_nil]

theorem cons_findSub (r : Run) (runs : List Run) (ph : List Char) (pos : Nat)
    (hfind : findSub ph (concatText (r :: runs)) = some pos)
    (he0 : r.text.length ≤ pos) :
    findSub ph (concatText runs) = some (pos - r.text.length) := by
  have h2 := findSub_drop ph r.text.length _ pos hfind he0
  rw [concatText_cons, List.drop_left] at h2
  exact h2

/-- Core correctness of the run-span rewrite: when the occurrence overlaps
at least two entries of the offset table, the rewritten concatenation is
the original with the first occurrence replaced. -/
theorem replace_concat_core :
    ∀ (n : Nat) (runs : List Run) (ph repl : List Char) (pos : Nat),
      runs.length ≤ n → ph ≠ [] → repl ≠ ph →
      findSub ph (concatText runs) = some pos →
      2 ≤ (affectedList runs pos ph.length).length →
      concatText (replace_placeholder_in_runs runs ph repl) =
        (concatText runs).take pos ++ repl ++
          (concatText runs).drop (pos + ph.length) := by
  intro n
  induction n with
  | zero =>
    intro runs ph repl pos hl hp _ hfind _
    have : runs = [] := List.length_eq_zero.mp (Nat.le_zero.mp hl)
    subst this
    rw [show concatText [] = [] from rfl, findSub_nil ph hp] at hfind
    cases hfind
  | succ n ih =>
    intro runs ph repl pos hl hp hne hfind haff2
    have hL : 0 < ph.length := List.length_pos.mpr hp
    cases runs with
    | nil =>
      rw [show concatText [] = [] from rfl, findSub_nil ph hp] at hfind
      cases hfind
    | cons r0 t =>
      by_cases haf : affP pos ph.length (0, 0, r0.text.length)
      · rcases List.eq_nil_or_concat (r0 :: t) with hnil | ⟨init, rl, hsnoc⟩
        · simp at hnil
        · rw [List.concat_eq_append] at hsnoc
          by_cases hlaf : affP pos ph.length
            (init.length, (concatText init).length,
              (concatText init).length + rl.text.length)
          · -- both the first and last run are affected: every run is
            refine replace_all_affected (r0 :: t) ph repl pos hp hne hfind ?_ ?_
            · intro y hy
              have hlen2 : (runInfo (r0 :: t)).length = (r0 :: t).length :=
                runInfoFrom_length (r0 :: t) 0 0
              have hytail : y = (0, 0, 0 + r0.text.length) ∨
                  y ∈ runInfoFrom (0 + 1) (0 + r0.text.length) t := by
                have : runInfo (r0 :: t) = (0, 0, 0 + r0.text.length) ::
                    runInfoFrom (0 + 1) (0 + r0.text.length) t := rfl
                rw [this] at hy
                simpa using hy
              have hysnoc : y ∈ runInfo init ∨
                  y = (0 + init.length, 0 + (concatText init).length,
                    0 + (concatText init).length + rl.text.length) := by
                have h3 : runInfo (r0 :: t) = runInfo init ++
                    [(0 + init.length, 0 + (concatText init).length,
                      0 + (concatText init).length + rl.text.length)] := by
                  unfold runInfo
                  rw [hsnoc, runInfoFrom_append_one]
                rw [h3] at hy
                simpa using hy
              rcases hytail with rfl | hyt
              · simpa using haf
              · rcases hysnoc with hyi | rfl
                · have hb1 := runInfoFrom_mem_bounds t (0 + 1)
                    (0 + r0.text.length) y hyt
                  have hb2 := runInfoFrom_mem_bounds init 0 0 y hyi
                  refine affP_between pos ph.length
                    (0, 0, r0.text.length)
                    y
                    (init.length, (concatText init).length,
                      (concatText init).length + rl.text.length)
                    (by dsimp only; omega) (by dsimp only; omega)
                    (by dsimp only; omega) (by dsimp only; omega)
                    haf hlaf
                · simpa using hlaf
            · have hle := List.length_filter_le
                (fun x => decide (affP pos ph.length x)) (runInfo (r0 :: t))
              have hlen2 : (runInfo (r0 :: t)).length = (r0 :: t).length :=
                runInfoFrom_length (r0 :: t) 0 0
              unfold affectedList at haff2
              simp only [List.length_cons] at *
              omega
          · -- last run unaffected: peel it off the back
            rw [hsnoc] at hfind haff2 ⊢
            have hTL := snoc_unaffected_le init rl ph pos hp hfind hlaf
            have hfind' := snoc_findSub init rl ph pos hp hfind hTL
            have hfilA := snoc_affectedList init rl pos ph.length hlaf
            have haff2' : 2 ≤ (affectedList init pos ph.length).length := by
              rw [hfilA] at haff2
              exact haff2
            have hlinit : init.length ≤ n := by
              have := congrArg List.length hsnoc
              simp only [List.length_cons, List.length_append,
                List.length_cons, List.length_nil] at this
              simp only [List.length_cons] at hl
              omega
            rw [replace_snoc_not_affected init rl ph repl pos hp hne hfind hlaf]
            rw [concatText_append, concatText_singleton,
              ih init ph repl pos hlinit hp hne hfind' haff2']
            rw [concatText_append, concatText_singleton]
            rw [show (concatText init ++ rl.text).take pos =
                (concatText init).take pos from
              List.take_append_of_le_length (by omega)]
            rw [show (concatText init ++ rl.text).drop (pos + ph.length) =
                (concatText init).drop (pos + ph.length) ++ rl.text from
              List.drop_append_of_le_length hTL]
            simp [List.append_assoc]
      · -- first run unaffected: peel it off the front
        have he0 : r0.text.length ≤ pos := cons_unaffected_le r0 pos ph.length hL haf
        have hfind' := cons_findSub r0 t ph pos hfind he0
        have hfilc := affectedList_cons r0 t pos ph.length haf he0
        have haff2' : 2 ≤ (affectedList t (pos - r0.text.length) ph.length).length := by
          rw [hfilc] at haff2
          simpa using haff2
        have hlt : t.length ≤ n := by
          simp only [List.length_cons] at hl
          omega
        rw [replace_cons_not_affected r0 t ph repl pos hp hne hfind haf]
        rw [concatText_cons, concatText_cons,
          ih t ph repl (pos - r0.text.length) hlt hp hne hfind' haff2']
        rw [List.take_append_eq_append_take,
          show r0.text.take pos = r0.text from List.take_of_length_le he0,
          List.drop_append_eq_append_drop,
          show r0.text.drop (pos + ph.length) = [] from
            List.drop_eq_nil_of_le (by omega),
          show pos + ph.length - r0.text.length =
            pos - r0.text.length + ph.length from by omega]
        simp [List.append_assoc]

/-- The index components of the affected list are pairwise distinct. -/
theorem affectedList_idx_nodup (runs : List Run) (pos L : Nat) :
    ((affectedList runs pos L).map (fun x => x.1)).Nodup := by
  have hsub : (affectedList runs pos L).Sublist (runInfo runs) :=
    List.filter_sublist _
  have hsub2 : ((affectedList runs pos L).map (fun x => x.1)).Sublist
      ((runInfo runs).map (fun x => x.1)) := hsub.map _
  refine hsub2.nodup ?_
  rw [show (runInfo runs).map (fun x => x.1) = List.range' 0 runs.length from
    runInfoFrom_idx runs 0 0]
  exact List.nodup_range' _ _

theorem affectedList_idx_inj (runs : List Run) (pos L : Nat)
    (x y : Nat × Nat × Nat) (hx : x ∈ affectedList runs pos L)
    (hy : y ∈ affectedList runs pos L) (hxy : x.1 = y.1) : x = y := by
  have hsub : (affectedList runs pos L).Sublist (runInfo runs) :=
    List.filter_sublist _
  have hnd : ((runInfo runs).map (fun x => x.1)).Nodup := by
    rw [show (runInfo runs).map (fun x => x.1) = List.range' 0 runs.length from
      runInfoFrom_idx runs 0 0]
    exact List.nodup_range' _ _
  exact List.inj_on_of_nodup_map hnd (hsub.mem hx) (hsub.mem hy) hxy

/-- Every affected run other than the first is emptied by the rewrite. -/
theorem replace_cleared (runs : List Run) (ph repl : List Char) (pos : Nat)
    (a0 : Nat × Nat × Nat) (rest : List (Nat × Nat × Nat))
    (hguard : ¬ replaceAll ph repl (concatText runs) = concatText runs)
    (hfind : findSub ph (concatText runs) = some pos)
    (hfil : affectedList runs pos ph.length = a0 :: rest) :
    ∀ x ∈ rest, (replace_placeholder_in_runs runs ph repl).get? x.1 =
      (runs.get? x.1).map (fun r => { r with text := [] }) := by
  intro x hx
  rw [replace_of_filter_cons runs ph repl pos a0 rest hguard hfind hfil]
  rw [rewriteRuns_get]
  have hxa : x.1 ≠ a0.1 := by
    intro hc
    have hxm : x ∈ affectedList runs pos ph.length := by
      rw [hfil]
      exact List.mem_cons_of_mem a0 hx
    have ham : a0 ∈ affectedList runs pos ph.length := by
      rw [hfil]
      exact List.mem_cons_self a0 rest
    have := affectedList_idx_inj runs pos ph.length x a0 hxm ham hc
    subst this
    have := affectedList_idx_nodup runs pos ph.length
    rw [hfil] at this
    simp only [List.map_cons, List.nodup_cons] at this
    exact this.1 (List.mem_map_of_mem (fun y => y.1) hx)
  cases hget : runs.get? x.1 with
  | none => rfl
  | some r =>
    simp only [Option.map_some']
    rw [if_neg (by simpa using hxa),
      if_pos (by simpa using List.mem_map_of_mem (fun y => y.1) hx)]

/-- A run whose offset entry is not affected is completely untouched. -/
theorem replace_unaffected (runs : List Run) (ph repl : List Char) (pos : Nat)
    (hfind : findSub ph (concatText runs) = some pos) :
    ∀ x ∈ runInfo runs, ¬ affP pos ph.length x →
      (replace_placeholder_in_runs runs ph repl).get? x.1 = runs.get? x.1 := by
  intro x hx hnaff
  by_cases hguard : replaceAll ph repl (concatText runs) = concatText runs
  · rw [replace_of_guard runs ph repl hguard]
  · cases hfil : affectedList runs pos ph.length with
    | nil => rw [replace_of_filter_nil runs ph repl pos hfind hfil]
    | cons a0 rest =>
      rw [replace_of_filter_cons runs ph repl pos a0 rest hguard hfind hfil]
      rw [rewriteRuns_get]
      have hmemaff : ∀ y ∈ affectedList runs pos ph.length, x.1 ≠ y.1 := by
        intro y hy hc
        have hyr : y ∈ runInfo runs :=
          (List.filter_sublist _).mem hy
        have hnd : ((runInfo runs).map (fun z => z.1)).Nodup := by
          rw [show (runInfo runs).map (fun z => z.1) =
            List.range' 0 runs.length from runInfoFrom_idx runs 0 0]
          exact List.nodup_range' _ _
        have hxy := List.inj_on_of_nodup_map hnd hx hyr hc
        subst hxy
        have hy' : x ∈ (runInfo runs).filter
            (fun z => decide (affP pos ph.length z)) := hy
        have : decide (affP pos ph.length x) = true := (List.mem_filter.mp hy').2
        exact hnaff (of_decide_eq_true this)
      have hxa : ¬ (0 + x.1 = a0.1) := by
        simpa using hmemaff a0 (hfil ▸ List.mem_cons_self a0 rest)
      have hxr : ¬ (0 + x.1 ∈ rest.map (fun y => y.1)) := by
        simp only [Nat.zero_add, List.mem_map]
        rintro ⟨y, hy, hc⟩
        exact hmemaff y (hfil ▸ List.mem_cons_of_mem a0 hy) hc.symm
      cases hget : runs.get? x.1 with
      | none => rfl
      | some r =>
        simp only [Option.map_some']
        rw [if_neg hxa, if_neg hxr]

/-- The formatting handles are never reassigned by the rewrite. -/
theorem replace_map_fmt (runs : List Run) (ph repl : List Char) :
    (replace_placeholder_in_runs runs ph repl).map Run.fmt = runs.map Run.fmt := by
  by_cases hguard : replaceAll ph repl (concatText runs) = concatText runs
  · rw [replace_of_guard runs ph repl hguard]
  · cases hfind : findSub ph (concatText runs) with
    | none => rw [replace_of_find_none runs ph repl hfind]
    | some pos =>
      cases hfil : affectedList runs pos ph.length with
      | nil => rw [replace_of_filter_nil runs ph repl pos hfind hfil]
      | cons a0 rest =>
        rw [replace_of_filter_cons runs ph repl pos a0 rest hguard hfind hfil]
        exact rewriteRuns_map_fmt _ _ _ runs 0

/-- Word characters of the placeholder pattern `\x7b\x7b(\w+)\x7d\x7d`:
ASCII letters, digits and underscore, plus the CJK unified ideographs used
by this template's field names (an executable approximation of Python's
Unicode-aware `\w`). -/
def isWordChar (c : Char) : Bool :=
  c.isAlphanum || c = '_' || (0x4E00 ≤ c.toNat && c.toNat ≤ 0x9FFF)

/-- Worker of the regex scan `re.findall` for the placeholder pattern:
walk the text left to right; at `\x7b\x7b` take the maximal run of word
characters; if it is nonempty and followed by `\x7d\x7d`, capture it and
continue after the match, otherwise resume the scan one character later.
Structurally recursive on fuel (one unit per character examined). -/
def scanGo : Nat → List Char → List (List Char)
  | _, [] => []
  | 0, _ :: _ => []
  | fuel + 1, c :: rest =>
    if c = '\x7b' ∧ rest.head? = some '\x7b' then
      let rest2 := rest.tail
      let w := rest2.takeWhile isWordChar
      let d := rest2.dropWhile isWordChar
      if w ≠ [] ∧ d.take 2 = ['\x7d', '\x7d'] then
        w :: scanGo fuel (d.drop 2)
      else scanGo fuel rest
    else scanGo fuel rest

/-- All identifiers captured by `\x7b\x7b(\w+)\x7d\x7d` on a text, in
order of occurrence. -/
def scanPlaceholders (l : List Char) : List (List Char) :=
  scanGo l.length l

theorem length_dropWhile_le (p : Char → Bool) :
    ∀ l : List Char, (l.dropWhile p).length ≤ l.length := by
  intro l
  induction l with
  | nil => simp [List.dropWhile]
  | cons c t ih =>
    rw [List.dropWhile]
    split
    · simp only [List.length_cons]
      omega
    · simp

theorem scanGo_sound :
    ∀ (fuel : Nat) (l : List Char), l.length ≤ fuel →
      ∀ w ∈ scanGo fuel l,
        (∃ a b, l = a ++ '\x7b' :: '\x7b' :: (w ++ '\x7d' :: '\x7d' :: b)) ∧
          w ≠ [] ∧ w.all isWordChar := by
  intro fuel
  induction fuel with
  | zero =>
    intro l hl w hw
    cases l with
    | nil => simp [scanGo] at hw
    | cons c t => simp [scanGo] at hw
  | succ fuel ih =>
    intro l hl w hw
    cases l with
    | nil => simp [scanGo] at hw
    | cons c rest =>
      simp only [List.length_cons] at hl
      rw [scanGo] at hw
      by_cases hbrace : c = '\x7b' ∧ rest.head? = some '\x7b'
      · rw [if_pos hbrace] at hw
        obtain ⟨rfl, hhead⟩ := hbrace
        have hrest : rest = '\x7b' :: rest.tail := by
          cases rest with
          | nil => simp at hhead
          | cons x t =>
            simp only [List.head?_cons, Option.some.injEq] at hhead
            rw [hhead]
            rfl
        by_cases hcap : rest.tail.takeWhile isWordChar ≠ [] ∧
            (rest.tail.dropWhile isWordChar).take 2 = ['\x7d', '\x7d']
        · rw [if_pos hcap] at hw
          have hsplit : rest.tail =
              rest.tail.takeWhile isWordChar ++ rest.tail.dropWhile isWordChar :=
            (List.takeWhile_append_dropWhile ..).symm
          have hdshape : rest.tail.dropWhile isWordChar = '\x7d' :: '\x7d' ::
              (rest.tail.dropWhile isWordChar).drop 2 := by
            rcases hd : rest.tail.dropWhile isWordChar with _ | ⟨x, _ | ⟨y, d2⟩⟩
            · rw [hd] at hcap
              simp at hcap
            · rw [hd] at hcap
              simp at hcap
            · rw [hd] at hcap
              obtain ⟨rfl, rfl⟩ : x = '\x7d' ∧ y = '\x7d' := by
                have := hcap.2
                simp only [List.take] at this
                exact ⟨(List.cons.inj this).1, ((List.cons.inj
                  ((List.cons.inj this).2)).1)⟩
              rfl
          simp only [List.mem_cons] at hw
          rcases hw with rfl | hw
          · refine ⟨⟨[], (rest.tail.dropWhile isWordChar).drop 2, ?_⟩,
              hcap.1, ?_⟩
            · rw [List.nil_append]
              refine congrArg (List.cons '\x7b') ?_
              rw [hrest]
              refine congrArg (List.cons '\x7b') ?_
              conv_lhs => rw [hsplit, hdshape]
              simp
            · simp only [List.all_eq_true]
              intro x hx
              exact List.mem_takeWhile_imp hx
          · have hlen2 : ((rest.tail.dropWhile isWordChar).drop 2).length ≤ fuel := by
              have h1 := length_dropWhile_le isWordChar rest.tail
              have h2 : rest.tail.length + 1 = rest.length := by
                rw [hrest]
                simp
              simp only [List.length_drop]
              omega
            obtain ⟨⟨a, b, hab⟩, hne, hall⟩ := ih _ hlen2 w hw
            refine ⟨⟨'\x7b' :: '\x7b' :: rest.tail.takeWhile isWordChar ++
              '\x7d' :: '\x7d' :: a, b, ?_⟩, hne, hall⟩
            refine congrArg (List.cons '\x7b') ?_
            rw [hrest]
            refine congrArg (List.cons '\x7b') ?_
            conv_lhs => rw [hsplit, hdshape, hab]
            simp
        · rw [if_neg hcap] at hw
          have hlen2 : rest.length ≤ fuel := by omega
          obtain ⟨⟨a, b, hab⟩, hne, hall⟩ := ih rest hlen2 w hw
          exact ⟨⟨'\x7b' :: a, b, by rw [hab, List.cons_append]⟩, hne, hall⟩
      · rw [if_neg hbrace] at hw
        have hlen2 : rest.length ≤ fuel := by omega
        obtain ⟨⟨a, b, hab⟩, hne, hall⟩ := ih rest hlen2 w hw
        exact ⟨⟨c :: a, b, by rw [hab, List.cons_append]⟩, hne, hall⟩

theorem scanPlaceholders_sound (l : List Char) (w : List Char)
    (hw : w ∈ scanPlaceholders l) :
    (∃ a b, l = a ++ '\x7b' :: '\x7b' :: (w ++ '\x7d' :: '\x7d' :: b)) ∧
      w ≠ [] ∧ w.all isWordChar :=
  scanGo_sound l.length l le_rfl w hw

/-- A paragraph of the document model: an ordered list of runs. -/
structure DocPara where
  runs : List Run

/-- The full text of a paragraph as built by the scan: the concatenation
of all run texts (the `paragraph.text` fallback used when a paragraph has
no runs is the same concatenation, which is empty there). -/
def paraFullText (p : DocPara) : List Char :=
  concatText p.runs

/-- A table: rows of cells, each cell holding paragraphs. -/
structure DocTable where
  rows : List (List (List DocPara))

/-- A document: body paragraphs plus tables. -/
structure Doc where
  paragraphs : List DocPara
  tables : List DocTable

/-- Every paragraph text the scan visits: body paragraphs in order, then
every paragraph of every cell of every row of every table. -/
def allParagraphTexts (doc : Doc) : List (List Char) :=
  doc.paragraphs.map paraFullText ++
    (doc.tables.map (fun t =>
      (t.rows.map (fun row =>
        (row.map (fun cell => cell.map paraFullText)).flatten)).flatten)).flatten

/-- Embedding of the scanning part of `get_template_variables`: apply the
placeholder pattern to each concatenated paragraph text of the body and of
every table cell, collecting the captured identifiers into a set. -/
def get_template_variables (doc : Doc) : Finset (List Char) :=
  ((allParagraphTexts doc).map scanPlaceholders).flatten.toFinset

/-- Embedding of Python single-character `str.split`: split at every
occurrence of the separator, keeping empty pieces. -/
def splitOnChar (sep : Char) : List Char → List (List Char)
  | [] => [[]]
  | c :: t =>
    let r := splitOnChar sep t
    if c = sep then [] :: r
    else (c :: r.headD []) :: r.tail

/-- Whitespace characters removed by Python `str.strip`. -/
def isSpaceChar (c : Char) : Bool :=
  c = ' ' || c = '\t' || c = '\n' || c = '\r'

/-- Embedding of Python `str.strip` with no argument. -/
def pyStrip (l : List Char) : List Char :=
  ((l.dropWhile isSpaceChar).reverse.dropWhile isSpaceChar).reverse

/-- Embedding of Python `int(...)` on a decimal digit string. -/
def natOfDigits (l : List Char) : Nat :=
  l.foldl (fun n c => n * 10 + (c.toNat - 48)) 0

/-- The date source column candidates of `process_date_fields`, in the
fixed priority order the source tries them. -/
def date_field_names : List (List Char) :=
  ["提交时间".data, "提交日期".data, "日期".data, "时间".data,
    "创建时间".data, "更新时间".data]

/-- The first candidate present among the sheet's columns (first match
wins; `none` when no candidate column exists). -/
def findDateField (columns : List (List Char)) : Option (List Char) :=
  date_field_names.find? (fun n => columns.contains n)

/-- Leading-zero stripping via the integer round-trip
`str(int(p)) if p.isdigit() else p` applied to month and day parts. -/
def stripLeadingZeros (p : List Char) : List Char :=
  if p ≠ [] ∧ p.all Char.isDigit then Nat.toDigits 10 (natOfDigits p) else p

/-- The three-part split of `process_date_fields`: with at least three
parts, the year is stored verbatim (stripped of surrounding whitespace,
never truncated) and month and day are zero-stripped; otherwise nothing
is stored. -/
def parseParts (parts : List (List Char)) :
    Option (List Char × List Char × List Char) :=
  match parts with
  | p0 :: p1 :: p2 :: _ =>
    some (pyStrip p0, stripLeadingZeros p1, stripLeadingZeros p2)
  | _ => none

/-- Separator detection of `process_date_fields`: `/` is tried before
`-`; any other shape leaves the record unchanged. -/
def parseDatePart (dp : List Char) :
    Option (List Char × List Char × List Char) :=
  if dp.contains '/' then parseParts (splitOnChar '/' dp)
  else if dp.contains '-' then parseParts (splitOnChar '-' dp)
  else none

/-- Embedding of the string branch of `process_date_fields` for one cell
value: strip, cut the time-of-day suffix at the first space, then parse.
`none` means the record's date fields are left unchanged (the source
swallows any failure in a bare `except`). -/
def process_date_string (s : List Char) :
    Option (List Char × List Char × List Char) :=
  parseDatePart
    (if (pyStrip s).contains ' ' then (splitOnChar ' ' (pyStrip s)).headD []
     else pyStrip s)

/-- Embedding of the composite identifier derivation (转档字号), shared by
`process_date_fields`, `update_transfer_number_for_row` and
`generate_single`: when the year, the student id and the class name are
all non-blank, the last two characters of the year (the whole year when it
is shorter than two characters) are concatenated with the id, an
underscore and the class name; otherwise nothing is derived. -/
def update_transfer_number (year student_id class_name : List Char) :
    Option (List Char) :=
  if year ≠ [] ∧ student_id ≠ [] ∧ class_name ≠ [] then
    some ((if 2 ≤ year.length then year.drop (year.length - 2) else year) ++
      student_id ++ '_' :: class_name)
  else none

/-- Embedding of the missing-field computation of `batch_generate`
(lines 1029-1032): a template variable is missing when it is not a column
of the row or its cell text is empty
(`field not in row_data or not row_data[field]`). -/
def batch_missing_fields (template_variables : List (List Char))
    (row_data : List (List Char × List Char)) : List (List Char) :=
  template_variables.filter
    (fun f =>
      match row_data.lookup f with
      | none => true
      | some v => v.isEmpty)

/-- Observable outcome of one batch: the success counter, the persisted
outputs in order, and the error surfaced by the `except` handler (if
any). -/
structure RunResult (β : Type) where
  success_count : Nat
  outputs : List β
  error : Option String
deriving DecidableEq, Repr

def runBatchGo {α β : Type} (render : α → Except String β) :
    List α → Nat → List β → RunResult β
  | [], n, outs => ⟨n, outs, none⟩
  | x :: t, n, outs =>
    match render x with
    | Except.ok y => runBatchGo render t (n + 1) (outs ++ [y])
    | Except.error e => ⟨n, outs, some e⟩

/-- Embedding of `WordGeneratorThread.run`: render the queued records in
input order; each successful render is persisted and counted before the
next record starts; the first raised error aborts the remaining queue and
is surfaced together with the count accumulated so far. -/
def WordGeneratorThread_run {α β : Type} (render : α → Except String β)
    (data_rows : List α) : RunResult β :=
  runBatchGo render data_rows 0 []

theorem runBatchGo_spec {α β : Type} (render : α → Except String β) :
    ∀ (pre : List α) (r : α) (post : List α) (e : String) (n : Nat)
      (outs : List β),
      (∀ x ∈ pre, (render x).isOk = true) → render r = Except.error e →
      runBatchGo render (pre ++ r :: post) n outs =
        ⟨n + pre.length, outs ++ pre.filterMap (fun x => (render x).toOption),
          some e⟩ := by
  intro pre
  induction pre with
  | nil =>
    intro r post e n outs _ hr
    rw [List.nil_append, runBatchGo, hr]
    simp
  | cons p t ih =>
    intro r post e n outs hpre hr
    rw [List.cons_append, runBatchGo]
    have hpok := hpre p (List.mem_cons_self p t)
    cases hp : render p with
    | error e2 =>
      rw [hp] at hpok
      simp [Except.isOk, Except.toBool] at hpok
    | ok y =>
      dsimp only
      rw [ih r post e (n + 1) (outs ++ [y])
        (fun x hx => hpre x (List.mem_cons_of_mem p hx)) hr]
      simp only [List.filterMap_cons, hp, Except.toOption, List.length_cons,
        RunResult.mk.injEq, List.append_assoc, List.singleton_append]
      exact ⟨by omega, trivial, trivial⟩

/-- C1 counterexample: a template requiring the composite field 转档字号
and a record lacking it; the missing set computed by `batch_generate`
contains 转档字号, which is then presented in the fill-in dialog —
refuting the claimed exclusion of the composite field. -/
theorem C1_composite_in_missing :
    "转档字号".data ∈ batch_missing_fields ["转档字号".data] [] := by decide

/-- C1 (amended): the missing-field set computed before rendering equals
the template's identifiers minus the fields whose record value is present
and non-blank, with no field excluded — in particular the composite field
转档字号 is a member (and so is requested from the user) whenever its
value in the record is blank or absent. -/
theorem C1_missing_fields_amended :
    ∀ (template_variables : List (List Char))
      (row_data : List (List Char × List Char)) (f : List Char),
      f ∈ batch_missing_fields template_variables row_data ↔
        f ∈ template_variables ∧
          (row_data.lookup f = none ∨ row_data.lookup f = some []) := by
  intro tv rd f
  unfold batch_missing_fields
  rw [List.mem_filter]
  constructor
  · rintro ⟨h1, h2⟩
    refine ⟨h1, ?_⟩
    cases hv : rd.lookup f with
    | none => exact Or.inl rfl
    | some v =>
      rw [hv] at h2
      simp only at h2
      rw [List.isEmpty_iff] at h2
      exact Or.inr (by rw [h2])
  · rintro ⟨h1, h2 | h2⟩
    · exact ⟨h1, by rw [h2]⟩
    · exact ⟨h1, by rw [h2]; rfl⟩

/-- C2: the code evaluated at the failing input: a paragraph of one run
`a\x7b\x7bA\x7d\x7db` rewritten with value `x` yields the concatenation
`ax` — the non-placeholder text `b` lying in the same run after the
placeholder is dropped instead of preserved byte-for-byte (the claimed
invariant demands `axb`). -/
theorem C2_trailing_text_dropped :
    concatText (replace_placeholder_in_runs
      [⟨0, "a\x7b\x7bA\x7d\x7db".data⟩] (mkPlaceholder "A".data) "x".data)
      = "ax".data ∧ "ax".data ≠ "axb".data := by
  exact ⟨by decide, by decide⟩

/-- C3: the code evaluated at the failing input: a single-run paragraph
`p\x7b\x7bN\x7d\x7dq` with exactly one occurrence, rewritten with value
`v`, keeps its formatting handle (7) but its text becomes `pv` — the text
after the token is not retained (the claim demands `pvq`). -/
theorem C3_single_run_rewrite :
    replace_placeholder_in_runs [⟨7, "p\x7b\x7bN\x7d\x7dq".data⟩]
      (mkPlaceholder "N".data) "v".data = [⟨7, "pv".data⟩] := by decide

/-- C4: when the placeholder's span overlaps at least two entries of the
run-offset table, the rewrite produces the original concatenation with the
token's first occurrence replaced by the value, and every overlapping run
other than the first is emptied; Scenario A: runs `\x7b\x7bA` and
`\x7d\x7d\x7b\x7bB\x7d\x7d` with A=x, B=y render to `xy`. -/
theorem C4_split_placeholder :
    (∀ (runs : List Run) (ph repl : List Char) (pos : Nat)
        (a0 : Nat × Nat × Nat) (rest : List (Nat × Nat × Nat)),
      ph ≠ [] → repl ≠ ph →
      findSub ph (concatText runs) = some pos →
      affectedList runs pos ph.length = a0 :: rest → rest ≠ [] →
      concatText (replace_placeholder_in_runs runs ph repl) =
        (concatText runs).take pos ++ repl ++
          (concatText runs).drop (pos + ph.length) ∧
      ∀ x ∈ rest, (replace_placeholder_in_runs runs ph repl).get? x.1 =
        (runs.get? x.1).map (fun r => { r with text := [] })) ∧
    concatText (replace_text_in_paragraph
      [⟨0, "\x7b\x7bA".data⟩, ⟨1, "\x7d\x7d\x7b\x7bB\x7d\x7d".data⟩]
      [("A".data, "x".data), ("B".data, "y".data)]) = "xy".data := by
  constructor
  · intro runs ph repl pos a0 rest hp hne hfind hfil hrest
    have hguard : ¬ replaceAll ph repl (concatText runs) = concatText runs :=
      replaceAll_ne ph repl _ pos hp hne hfind
    constructor
    · refine replace_concat_core runs.length runs ph repl pos le_rfl hp hne
        hfind ?_
      rw [hfil]
      cases rest with
      | nil => exact absurd rfl hrest
      | cons b r2 =>
        simp only [List.length_cons]
        omega
    · exact replace_cleared runs ph repl pos a0 rest hguard hfind hfil
  · decide

/-- Witness for C4: the placeholder `\x7b\x7bA\x7d\x7d` split across the
runs `\x7b\x7bA` and `\x7d\x7dz`, rewritten with value `q`. -/
theorem C4_split_placeholder_witness :
    concatText (replace_placeholder_in_runs
      [⟨0, "\x7b\x7bA".data⟩, ⟨1, "\x7d\x7dz".data⟩]
      (mkPlaceholder "A".data) "q".data) =
      (concatText [⟨0, "\x7b\x7bA".data⟩, ⟨1, "\x7d\x7dz".data⟩]).take 0 ++
        "q".data ++
        (concatText [⟨0, "\x7b\x7bA".data⟩, ⟨1, "\x7d\x7dz".data⟩]).drop
          (0 + (mkPlaceholder "A".data).length) ∧
    ∀ x ∈ [((1 : Nat), (3 : Nat), (6 : Nat))],
      (replace_placeholder_in_runs
        [⟨0, "\x7b\x7bA".data⟩, ⟨1, "\x7d\x7dz".data⟩]
        (mkPlaceholder "A".data) "q".data).get? x.1 =
      (([⟨0, "\x7b\x7bA".data⟩, ⟨1, "\x7d\x7dz".data⟩] : List Run).get?
        x.1).map (fun r => { r with text := [] }) :=
  C4_split_placeholder.1
    [⟨0, "\x7b\x7bA".data⟩, ⟨1, "\x7d\x7dz".data⟩]
    (mkPlaceholder "A".data) "q".data 0 (0, 0, 3) [(1, 3, 6)]
    (by decide) (by decide) (by decide) (by decide) (by decide)

/-- C5 counterexample: a paragraph whose concatenation contains the same
placeholder name twice; after the paragraph-level rendering with A=x the
concatenated run text still contains the token `\x7b\x7bA\x7d\x7d`,
contradicting the claim that re-invocation until a no-op scan removes
every occurrence. -/
theorem C5_duplicate_occurrence_remains :
    containsSub (mkPlaceholder "A".data)
      (concatText (replace_text_in_paragraph
        [⟨0, "\x7b\x7bA\x7d\x7d".data⟩, ⟨1, "\x7b\x7bA\x7d\x7d".data⟩]
        [("A".data, "x".data)])) = true := by decide

/-- C5 (amended): a single invocation of the run-span rewrite replaces
only the first occurrence of the placeholder name in the paragraph's
concatenation, and the paragraph-level caller invokes the procedure only
once per record key — it does not re-invoke until a no-op scan — so after
rendering a paragraph whose concatenation contains the same placeholder
name twice, an occurrence of that name can remain: the duplicate example
renders to `x\x7b\x7bA\x7d\x7d`. -/
theorem C5_single_invocation_first_occurrence :
    (∀ (runs : List Run) (ph repl : List Char) (pos : Nat)
        (a0 : Nat × Nat × Nat) (rest : List (Nat × Nat × Nat)),
      ph ≠ [] → repl ≠ ph →
      findSub ph (concatText runs) = some pos →
      affectedList runs pos ph.length = a0 :: rest → rest ≠ [] →
      concatText (replace_placeholder_in_runs runs ph repl) =
        (concatText runs).take pos ++ repl ++
          (concatText runs).drop (pos + ph.length)) ∧
    replace_text_in_paragraph
      [⟨0, "\x7b\x7bA\x7d\x7d".data⟩, ⟨1, "\x7b\x7bA\x7d\x7d".data⟩]
      [("A".data, "x".data)] =
      [⟨0, "x".data⟩, ⟨1, "\x7b\x7bA\x7d\x7d".data⟩] := by
  constructor
  · intro runs ph repl pos a0 rest hp hne hfind hfil hrest
    refine replace_concat_core runs.length runs ph repl pos le_rfl hp hne
      hfind ?_
    rw [hfil]
    cases rest with
    | nil => exact absurd rfl hrest
    | cons b r2 =>
      simp only [List.length_cons]
      omega
  · decide

/-- Witness for C5: the placeholder `\x7b\x7bB\x7d\x7d` split across the
runs `\x7b\x7bB` and `\x7d\x7dtail`, rewritten with value `r`. -/
theorem C5_single_invocation_witness :
    concatText (replace_placeholder_in_runs
      [⟨0, "\x7b\x7bB".data⟩, ⟨1, "\x7d\x7dtail".data⟩]
      (mkPlaceholder "B".data) "r".data) =
      (concatText [⟨0, "\x7b\x7bB".data⟩, ⟨1, "\x7d\x7dtail".data⟩]).take 0 ++
        "r".data ++
        (concatText [⟨0, "\x7b\x7bB".data⟩, ⟨1, "\x7d\x7dtail".data⟩]).drop
          (0 + (mkPlaceholder "B".data).length) :=
  C5_single_invocation_first_occurrence.1
    [⟨0, "\x7b\x7bB".data⟩, ⟨1, "\x7d\x7dtail".data⟩]
    (mkPlaceholder "B".data) "r".data 0 (0, 0, 3) [(1, 3, 9)]
    (by decide) (by decide) (by decide) (by decide) (by decide)

/-- C6: with the year, the identifier field (学号) and the category field
(班级) all present and non-blank, the derived composite identifier
(转档字号) is the last two characters of the year (the whole year when
shorter than two characters) concatenated with the identifier, an
underscore and the category; Scenario C: year 2024, id 1001, class CS1
give 241001_CS1; with any input blank or absent nothing is derived. -/
theorem C6_transfer_number :
    (∀ year student_id class_name : List Char,
      year ≠ [] → student_id ≠ [] → class_name ≠ [] →
      update_transfer_number year student_id class_name =
        some ((if 2 ≤ year.length then year.drop (year.length - 2) else year)
          ++ student_id ++ '_' :: class_name)) ∧
    update_transfer_number "2024".data "1001".data "CS1".data =
      some "241001_CS1".data ∧
    (∀ student_id class_name : List Char,
      update_transfer_number [] student_id class_name = none) ∧
    (∀ year class_name : List Char,
      update_transfer_number year [] class_name = none) ∧
    (∀ year student_id : List Char,
      update_transfer_number year student_id [] = none) := by
  refine ⟨?_, by decide, ?_, ?_, ?_⟩
  · intro y i c hy hi hc
    unfold update_transfer_number
    rw [if_pos ⟨hy, hi, hc⟩]
  · intro i c
    simp [update_transfer_number]
  · intro y c
    simp [update_transfer_number]
  · intro y i
    simp [update_transfer_number]

/-- Witness for C6: year 88, id 007, class Z give 88007_Z. -/
theorem C6_transfer_number_witness :
    update_transfer_number "88".data "007".data "Z".data =
      some "88007_Z".data :=
  (C6_transfer_number.1 "88".data "007".data "Z".data
    (by decide) (by decide) (by decide)).trans (by decide)

/-- C7: date derivation strips the time-of-day suffix at the first space,
detects `/` before `-`, splits into at least three parts, stores the year
part verbatim (whitespace-stripped, never truncated) and month and day
with leading zeros removed via the integer round-trip when purely numeric
and verbatim otherwise; Scenario B: `2024/3/05` gives year 2024, month 3,
day 5; a malformed date string parses to `none`, leaving the record's
date fields unchanged; the date source column is the first present name
of the fixed priority list. -/
theorem C7_date_parsing :
    (∀ s : List Char, (pyStrip s).contains ' ' = true →
      process_date_string s =
        parseDatePart ((splitOnChar ' ' (pyStrip s)).headD [])) ∧
    (∀ dp : List Char, dp.contains '/' = true →
      parseDatePart dp = parseParts (splitOnChar '/' dp)) ∧
    (∀ dp : List Char, dp.contains '/' = false → dp.contains '-' = true →
      parseDatePart dp = parseParts (splitOnChar '-' dp)) ∧
    (∀ dp : List Char, dp.contains '/' = false → dp.contains '-' = false →
      parseDatePart dp = none) ∧
    (∀ p0 p1 p2 : List Char, ∀ r : List (List Char),
      parseParts (p0 :: p1 :: p2 :: r) =
        some (pyStrip p0, stripLeadingZeros p1, stripLeadingZeros p2)) ∧
    (∀ p : List Char, p ≠ [] → p.all Char.isDigit = true →
      stripLeadingZeros p = Nat.toDigits 10 (natOfDigits p)) ∧
    (∀ p : List Char, ¬ (p ≠ [] ∧ p.all Char.isDigit = true) →
      stripLeadingZeros p = p) ∧
    process_date_string "2024/3/05".data =
      some ("2024".data, "3".data, "5".data) ∧
    process_date_string "2024-3-05 10:20:11".data =
      some ("2024".data, "3".data, "5".data) ∧
    process_date_string "20240305".data = none ∧
    process_date_string "2024/13".data = none ∧
    findDateField ["更新时间".data, "日期".data] = some "日期".data ∧
    findDateField ["学号".data, "班级".data] = none := by
  refine ⟨?_, ?_, ?_, ?_, ?_, ?_, ?_, by decide, by decide, by decide,
    by decide, by decide, by decide⟩
  · intro s hs
    unfold process_date_string
    rw [if_pos hs]
  · intro dp h
    unfold parseDatePart
    rw [if_pos h]
  · intro dp h1 h2
    unfold parseDatePart
    rw [if_neg (by rw [h1]; exact Bool.false_ne_true), if_pos h2]
  · intro dp h1 h2
    unfold parseDatePart
    rw [if_neg (by rw [h1]; exact Bool.false_ne_true),
      if_neg (by rw [h2]; exact Bool.false_ne_true)]
  · intro p0 p1 p2 r
    rfl
  · intro p h1 h2
    unfold stripLeadingZeros
    rw [if_pos ⟨h1, h2⟩]
  · intro p h
    unfold stripLeadingZeros
    rw [if_neg h]

/-- Witness for C7: the slash case on `9/08/7`. -/
theorem C7_date_parsing_witness :
    parseDatePart "9/08/7".data = some ("9".data, "8".data, "7".data) :=
  ((C7_date_parsing.2.1 "9/08/7".data (by decide))).trans (by decide)

/-- C8: the batch orchestrator renders records sequentially in input
order and is fail-fast: when a record's render raises, no record after it
is processed (the result does not depend on the remaining queue), the
success count is the number of records completed before the error, and
the outputs persisted so far together with the error are surfaced. -/
theorem C8_batch_fail_fast :
    ∀ {α β : Type} (render : α → Except String β) (pre : List α) (r : α)
      (post : List α) (e : String),
      (∀ x ∈ pre, (render x).isOk = true) → render r = Except.error e →
      WordGeneratorThread_run render (pre ++ r :: post) =
        ⟨pre.length, pre.filterMap (fun x => (render x).toOption), some e⟩ := by
  intro α β render pre r post e hpre hr
  unfold WordGeneratorThread_run
  rw [runBatchGo_spec render pre r post e 0 [] hpre hr]
  simp

/-- Witness for C8, Scenario E: a two-record batch whose second record
raises reports one success, has persisted only the first record's output,
and surfaces the error. -/
theorem C8_batch_fail_fast_witness :
    WordGeneratorThread_run
      (fun n => if n = 1 then Except.ok "f1" else Except.error "render failure")
      [1, 2] = ⟨1, ["f1"], some "render failure"⟩ :=
  (C8_batch_fail_fast
    (fun n => if n = 1 then Except.ok "f1" else Except.error "render failure")
    [1] 2 [] "render failure" (by decide) (by simp)).trans (by decide)

/-- C9: every identifier returned by the template variable scan is
non-empty, consists of word characters, and occurs literally as
`\x7b\x7bname\x7d\x7d` in the concatenated run text of some body
paragraph or table cell paragraph (occurrences split across runs
included, since the scan concatenates run texts first); a template none
of whose paragraph texts contains a placeholder yields the empty set.
The scan is a pure function of the document and mutates nothing. -/
theorem C9_scan_sound :
    (∀ (doc : Doc) (v : List Char), v ∈ get_template_variables doc →
      v ≠ [] ∧ v.all isWordChar ∧
        ∃ txt ∈ allParagraphTexts doc,
          ∃ a b, txt = a ++ '\x7b' :: '\x7b' :: (v ++ '\x7d' :: '\x7d' :: b)) ∧
    (∀ doc : Doc, (∀ txt ∈ allParagraphTexts doc, scanPlaceholders txt = []) →
      get_template_variables doc = ∅) := by
  constructor
  · intro doc v hv
    unfold get_template_variables at hv
    rw [List.mem_toFinset, List.mem_flatten] at hv
    obtain ⟨l, hl, hvl⟩ := hv
    rw [List.mem_map] at hl
    obtain ⟨txt, htxt, rfl⟩ := hl
    obtain ⟨⟨a, b, hab⟩, hne, hall⟩ := scanPlaceholders_sound txt v hvl
    exact ⟨hne, hall, txt, htxt, a, b, hab⟩
  · intro doc hscan
    rw [Finset.eq_empty_iff_forall_not_mem]
    intro v hv
    unfold get_template_variables at hv
    rw [List.mem_toFinset, List.mem_flatten] at hv
    obtain ⟨l, hl, hvl⟩ := hv
    rw [List.mem_map] at hl
    obtain ⟨txt, htxt, rfl⟩ := hl
    rw [hscan txt htxt] at hvl
    exact absurd hvl (List.not_mem_nil v)

/-- Witness for C9: a document whose body paragraph splits
`\x7b\x7bname\x7d\x7d` across two runs and whose table cell holds
`\x7b\x7bT\x7d\x7d`; `name` is scanned and occurs in a paragraph text. -/
theorem C9_scan_sound_witness :
    ("name".data : List Char) ≠ [] ∧ "name".data.all isWordChar ∧
      ∃ txt ∈ allParagraphTexts
        ⟨[⟨[⟨0, "\x7b\x7bna".data⟩, ⟨1, "me\x7d\x7d".data⟩]⟩],
          [⟨[[[⟨[⟨2, "x\x7b\x7bT\x7d\x7d".data⟩]⟩]]]⟩]⟩,
        ∃ a b, txt = a ++ '\x7b' :: '\x7b' ::
          ("name".data ++ '\x7d' :: '\x7d' :: b) :=
  C9_scan_sound.1
    ⟨[⟨[⟨0, "\x7b\x7bna".data⟩, ⟨1, "me\x7d\x7d".data⟩]⟩],
      [⟨[[[⟨[⟨2, "x\x7b\x7bT\x7d\x7d".data⟩]⟩]]]⟩]⟩
    "name".data (by decide)

/-- C10: the run-span rewrite is frame-respecting: when the token does
not occur in the concatenation of the current run texts, no run is
mutated; when it does occur, every run whose offset entry fails the
affected-interval condition is returned unchanged (text and formatting);
and no run's formatting handle is ever replaced — the rewrite only
reassigns run texts. -/
theorem C10_frame :
    (∀ (runs : List Run) (ph repl : List Char),
      findSub ph (concatText runs) = none →
      replace_placeholder_in_runs runs ph repl = runs) ∧
    (∀ (runs : List Run) (ph repl : List Char) (pos : Nat),
      findSub ph (concatText runs) = some pos →
      ∀ x ∈ runInfo runs, ¬ affP pos ph.length x →
        (replace_placeholder_in_runs runs ph repl).get? x.1 =
          runs.get? x.1) ∧
    (∀ (runs : List Run) (ph repl : List Char),
      (replace_placeholder_in_runs runs ph repl).map Run.fmt =
        runs.map Run.fmt) :=
  ⟨replace_of_find_none,
    fun runs ph repl pos hfind => replace_unaffected runs ph repl pos hfind,
    replace_map_fmt⟩

/-- Witness for C10: in the paragraph `ab` / `\x7b\x7bA\x7d\x7d` the
first run does not overlap the occurrence and is untouched. -/
theorem C10_frame_witness :
    (replace_placeholder_in_runs
      [⟨3, "ab".data⟩, ⟨4, "\x7b\x7bA\x7d\x7d".data⟩]
      (mkPlaceholder "A".data) "z".data).get? (0, 0, 2).1 =
      ([⟨3, "ab".data⟩, ⟨4, "\x7b\x7bA\x7d\x7d".data⟩] : List Run).get?
        (0, 0, 2).1 :=
  C10_frame.2.1 [⟨3, "ab".data⟩, ⟨4, "\x7b\x7bA\x7d\x7d".data⟩]
    (mkPlaceholder "A".data) "z".data 2 (by decide) (0, 0, 2)
    (by decide) (by decide)
